import Mathlib

/-!
Verification of the `simple-httpfs` byte-range cache-and-fetch engine
(`simple_httpfs/httpfs.py`) against its natural-language specification.

The Python source is shallowly embedded: bytes are `Nat` values (0..255),
byte strings are `List Nat`, the `OrderedDict`-based `LRUCache` is an
association list whose head is the least-recently-used entry, the
`diskcache` store is an association list used as a plain map, and the
stateful methods of `HttpFs` are pure functions threading an explicit
`FsState`.  Fallible Python code (a raised exception) is `Option`:
`none` models an uncaught exception reaching the caller.
-/

namespace SimpleHttpfs

/-! ## LRUCache (httpfs.py lines 42-64)

`self.cache` is a `collections.OrderedDict`; we represent it as an
association list in insertion order, so the head of the list is the
oldest (least recently used) entry and `popitem(last=False)` removes the
head.  `__getitem__` pops the key and reinserts it at the back;
`__setitem__` pops the key if present, otherwise evicts the head when
the cache is at capacity (raising `KeyError`, modelled as `none`, when
`popitem` runs on an empty dict, which happens exactly at capacity 0),
then appends the new pair at the back. -/

/-- Lookup in an association list (first matching key). -/
def lookup {κ α : Type} [DecidableEq κ] (l : List (κ × α)) (k : κ) : Option α :=
  (l.find? (fun p => p.1 = k)).map (·.2)

/-- Model of `LRUCache.__getitem__`: `value = self.cache.pop(key); self.cache[key] = value`.
Returns `none` (KeyError) when the key is absent. -/
def lruGet {κ α : Type} [DecidableEq κ] (l : List (κ × α)) (k : κ) :
    Option (α × List (κ × α)) :=
  match lookup l k with
  | none => none
  | some v => some (v, l.filter (fun p => ¬ (p.1 = k)) ++ [(k, v)])

/-- Model of `LRUCache.__setitem__`: pop the key if present; on `KeyError`, evict the
oldest entry when at capacity (`popitem(last=False)`, which raises on an
empty dict — the `none` case); then insert at the back. -/
def lruSet {κ α : Type} [DecidableEq κ] (l : List (κ × α)) (capacity : Nat)
    (k : κ) (v : α) : Option (List (κ × α)) :=
  match lookup l k with
  | some _ => some (l.filter (fun p => ¬ (p.1 = k)) ++ [(k, v)])
  | none =>
    if l.length ≥ capacity then
      match l with
      | [] => none
      | _ :: t => some (t ++ [(k, v)])
    else some (l ++ [(k, v)])

/-- Membership test `key in cache` (`LRUCache.__contains__`). -/
def lruContains {κ α : Type} [DecidableEq κ] (l : List (κ × α)) (k : κ) : Prop :=
  lookup l k ≠ none

/-- Insert a list of (key, value) pairs in order, propagating a raise. -/
def lruSetMany {κ α : Type} [DecidableEq κ] (l : List (κ × α)) (capacity : Nat) :
    List (κ × α) → Option (List (κ × α))
  | [] => some l
  | (k, v) :: rest =>
    match lruSet l capacity k v with
    | none => none
    | some l' => lruSetMany l' capacity rest

theorem lookup_nil {κ α : Type} [DecidableEq κ] (k : κ) :
    lookup ([] : List (κ × α)) k = none := rfl

theorem lookup_cons {κ α : Type} [DecidableEq κ] (k k' : κ) (v : α) (t : List (κ × α)) :
    lookup ((k', v) :: t) k = if k' = k then some v else lookup t k := by
  simp only [lookup, List.find?]
  by_cases h : k' = k <;> simp [h]

theorem lookup_eq_none_iff {κ α : Type} [DecidableEq κ] {l : List (κ × α)} {k : κ} :
    lookup l k = none ↔ ∀ p ∈ l, p.1 ≠ k := by
  simp [lookup, List.find?_eq_none]

theorem lookup_eq_none_of_subset {κ α : Type} [DecidableEq κ] {l l' : List (κ × α)} {k : κ}
    (hsub : l' ⊆ l) (h : lookup l k = none) : lookup l' k = none := by
  rw [lookup_eq_none_iff] at h ⊢
  exact fun p hp => h p (hsub hp)

theorem lookup_append_of_eq_none {κ α : Type} [DecidableEq κ] {l₁ : List (κ × α)} {k : κ}
    (l₂ : List (κ × α)) (h : lookup l₁ k = none) :
    lookup (l₁ ++ l₂) k = lookup l₂ k := by
  induction l₁ with
  | nil => rfl
  | cons p t ih =>
    obtain ⟨k', v⟩ := p
    rw [lookup_cons] at h
    rw [List.cons_append, lookup_cons]
    by_cases hk : k' = k
    · simp [hk] at h
    · simp only [hk, if_false] at h ⊢
      exact ih h

theorem lookup_filter_ne_self {κ α : Type} [DecidableEq κ] (l : List (κ × α)) (k : κ) :
    lookup (l.filter (fun p => ¬ (p.1 = k))) k = none := by
  rw [lookup_eq_none_iff]
  intro p hp
  have := List.of_mem_filter hp
  simpa using this

theorem mem_of_lookup_eq_some {κ α : Type} [DecidableEq κ] {l : List (κ × α)} {k : κ} {v : α}
    (h : lookup l k = some v) : (k, v) ∈ l := by
  simp only [lookup, Option.map_eq_some'] at h
  obtain ⟨p, hp, hv⟩ := h
  have hmem := List.mem_of_find?_eq_some hp
  have hkey : p.1 = k := by
    have := List.find?_some hp
    simpa using this
  obtain ⟨pk, pv⟩ := p
  subst hv
  simp only at hkey
  subst hkey
  exact hmem

/-- One client operation against an `LRUCache`. -/
inductive CacheOp (κ α : Type) where
  | get (k : κ)
  | set (k : κ) (v : α)

/-- Apply one operation; `none` models a raised `KeyError`. -/
def applyOp {κ α : Type} [DecidableEq κ] (capacity : Nat) (l : List (κ × α)) :
    CacheOp κ α → Option (List (κ × α))
  | .get k => (lruGet l k).map (·.2)
  | .set k v => lruSet l capacity k v

/-- Run a sequence of operations, stopping at the first raise. -/
def runOps {κ α : Type} [DecidableEq κ] (capacity : Nat) (l : List (κ × α)) :
    List (CacheOp κ α) → Option (List (κ × α))
  | [] => some l
  | op :: rest =>
    match applyOp capacity l op with
    | none => none
    | some l' => runOps capacity l' rest

theorem length_filter_lt_of_lookup_eq_some {κ α : Type} [DecidableEq κ]
    {l : List (κ × α)} {k : κ} {v : α} (h : lookup l k = some v) :
    (l.filter (fun p => ¬ (p.1 = k))).length < l.length := by
  have hmem := mem_of_lookup_eq_some h
  exact List.length_filter_lt_length_iff_exists.mpr ⟨(k, v), hmem, by simp⟩

theorem applyOp_length_le {κ α : Type} [DecidableEq κ] {c : Nat} {l l' : List (κ × α)}
    {op : CacheOp κ α} (h : applyOp c l op = some l') (hl : l.length ≤ c) :
    l'.length ≤ c := by
  cases op with
  | get k =>
    simp only [applyOp, lruGet] at h
    cases hv : lookup l k with
    | none => rw [hv] at h; simp at h
    | some v =>
      rw [hv] at h
      simp only [Option.map_some'] at h
      cases h
      have := length_filter_lt_of_lookup_eq_some hv
      simp only [List.length_append, List.length_singleton]
      omega
  | set k v =>
    simp only [applyOp, lruSet] at h
    cases hv : lookup l k with
    | some w =>
      rw [hv] at h
      cases h
      have := length_filter_lt_of_lookup_eq_some hv
      simp only [List.length_append, List.length_singleton]
      omega
    | none =>
      rw [hv] at h
      by_cases hfull : l.length ≥ c
      · rw [if_pos hfull] at h
        cases l with
        | nil => simp at h
        | cons p t =>
          simp only [Option.some.injEq] at h
          subst h
          simp only [List.length_append, List.length_singleton]
          simp only [List.length_cons] at hl
          omega
      · rw [if_neg hfull] at h
        simp only [Option.some.injEq] at h
        subst h
        simp only [List.length_append, List.length_singleton]
        omega

theorem runOps_length_le {κ α : Type} [DecidableEq κ] {c : Nat}
    (ops : List (CacheOp κ α)) :
    ∀ (l l' : List (κ × α)), l.length ≤ c → runOps c l ops = some l' → l'.length ≤ c := by
  induction ops with
  | nil => intro l l' hl h; simp only [runOps, Option.some.injEq] at h; subst h; exact hl
  | cons op rest ih =>
    intro l l' hl h
    simp only [runOps] at h
    cases hop : applyOp c l op with
    | none => rw [hop] at h; simp at h
    | some l₁ =>
      rw [hop] at h
      exact ih l₁ l' (applyOp_length_le hop hl) h

/-- Inserting fresh, pairwise-distinct keys into a cache with enough room
appends them at the back without any eviction. -/
theorem lruSetMany_fresh {κ α : Type} [DecidableEq κ] (entries : List (κ × α)) :
    ∀ (l : List (κ × α)) (c : Nat), l.length + entries.length ≤ c →
    (∀ k ∈ entries.map Prod.fst, lookup l k = none) →
    (entries.map Prod.fst).Nodup →
    lruSetMany l c entries = some (l ++ entries) := by
  induction entries with
  | nil => intro l c _ _ _; simp [lruSetMany]
  | cons e rest ih =>
    intro l c hlen hfresh hnodup
    obtain ⟨k, v⟩ := e
    have hk : lookup l k = none := hfresh k (by simp)
    simp only [lruSetMany, lruSet, hk]
    have hroom : ¬ l.length ≥ c := by
      simp only [List.length_cons] at hlen
      omega
    rw [if_neg hroom]
    have hres := ih (l ++ [(k, v)]) c
      (by
        simp only [List.length_append, List.length_singleton]
        simp only [List.length_cons] at hlen
        omega)
      (by
        intro k' hk'
        have hne : k' ≠ k := by
          simp only [List.map_cons, List.nodup_cons] at hnodup
          intro hcontra
          exact hnodup.1 (hcontra ▸ hk')
        rw [lookup_append_of_eq_none _ (hfresh k' (by simp [hk']))]
        rw [lookup_cons]
        simp [hne, lookup_nil, Ne.symm hne])
      (by simp only [List.map_cons, List.nodup_cons] at hnodup; exact hnodup.2)
    show lruSetMany (l ++ [(k, v)]) c rest = some (l ++ (k, v) :: rest)
    rw [hres]
    simp

theorem lruSetMany_append {κ α : Type} [DecidableEq κ] (a b : List (κ × α))
    (l : List (κ × α)) (c : Nat) :
    lruSetMany l c (a ++ b) =
      match lruSetMany l c a with
      | none => none
      | some l' => lruSetMany l' c b := by
  induction a generalizing l with
  | nil => simp [lruSetMany]
  | cons e rest ih =>
    obtain ⟨k, v⟩ := e
    simp only [List.cons_append, lruSetMany]
    cases lruSet l c k v with
    | none => rfl
    | some l' => exact ih l'

/-- With duplicate-free keys, filtering out a present key removes exactly
one entry. -/
theorem length_filter_ne_of_nodup {κ α : Type} [DecidableEq κ] :
    ∀ (l : List (κ × α)) (k : κ) (w : α), (l.map Prod.fst).Nodup →
    lookup l k = some w →
    (l.filter (fun p => ¬ (p.1 = k))).length + 1 = l.length := by
  intro l
  induction l with
  | nil => intro k w _ h; simp [lookup] at h
  | cons p t ih =>
    intro k w hnodup h
    obtain ⟨k₀, v₀⟩ := p
    rw [lookup_cons] at h
    simp only [List.map_cons, List.nodup_cons] at hnodup
    by_cases hk : k₀ = k
    · subst hk
      have hfe : t.filter (fun p => ¬ (p.1 = k₀)) = t := by
        rw [List.filter_eq_self]
        intro p hp
        simp only [decide_eq_true_eq]
        intro hcontra
        exact hnodup.1 (hcontra ▸ List.mem_map_of_mem Prod.fst hp)
      have hstep : List.filter (fun p => ¬ (p.1 = k₀)) ((k₀, v₀) :: t) = t := by
        rw [List.filter_cons_of_neg (by simp)]
        exact hfe
      rw [hstep]
      simp
    · simp only [hk, if_false] at h
      have := ih k w hnodup.2 h
      simp only [List.filter_cons, decide_eq_true_eq, hk]
      simp only [not_false_iff, decide_True, if_true, List.length_cons]
      omega

/-- Inserting `capacity + 1` distinct keys into an empty `LRUCache` keeps every
entry except the first-inserted (least recently used) one, in order. -/
theorem lru_overflow_evicts_head {κ α : Type} [DecidableEq κ] (c : Nat) (hc : 1 ≤ c)
    (entries : List (κ × α)) (hnodup : (entries.map Prod.fst).Nodup)
    (hlen : entries.length = c + 1) :
    lruSetMany [] c entries = some (entries.drop 1) := by
  have hne : entries ≠ [] := by
    intro h; rw [h] at hlen; simp at hlen
  have hsplit : entries.dropLast ++ [entries.getLast hne] = entries :=
    List.dropLast_append_getLast hne
  obtain ⟨ek, ev, hE⟩ : ∃ ek ev, entries.getLast hne = (ek, ev) :=
    ⟨(entries.getLast hne).1, (entries.getLast hne).2, rfl⟩
  have hflen : entries.dropLast.length = c := by
    rw [List.length_dropLast, hlen]
    omega
  have hnodup' : (entries.dropLast.map Prod.fst ++ [ek]).Nodup := by
    have heq : (entries.dropLast ++ [entries.getLast hne]).map Prod.fst =
        entries.dropLast.map Prod.fst ++ [ek] := by
      rw [List.map_append, hE]
      simp
    rw [← heq, hsplit]
    exact hnodup
  have hfresh : lookup entries.dropLast ek = none := by
    rw [lookup_eq_none_iff]
    intro p hp
    have hdisj := (List.nodup_append.mp hnodup').2.2
    intro hcontra
    exact hdisj (hcontra ▸ List.mem_map_of_mem Prod.fst hp) (by simp)
  rw [← hsplit, hE, lruSetMany_append]
  have hfill := lruSetMany_fresh entries.dropLast [] c (by simp [hflen])
    (fun k _ => lookup_nil k)
    ((List.nodup_append.mp hnodup').1)
  simp only [List.nil_append] at hfill
  rw [hfill]
  show lruSetMany entries.dropLast c [(ek, ev)] = _
  simp only [lruSetMany, lruSet, hfresh]
  rw [if_pos (by omega)]
  cases hdl : entries.dropLast with
  | nil => rw [hdl] at hflen; simp at hflen; omega
  | cons h t =>
    simp only [lruSetMany]
    simp [List.drop_append_of_le_length]

/-- Accessing a present key moves it to the most-recently-used position, so
when the cache holds at least two entries the next eviction removes a
different key. -/
theorem lru_get_refreshes {κ α : Type} [DecidableEq κ] (c : Nat) (hc : 2 ≤ c)
    (l : List (κ × α)) (hlen : l.length = c) (hnodup : (l.map Prod.fst).Nodup)
    (k : κ) (w : α) (hk : lookup l k = some w)
    (k' : κ) (v' : α) (hk' : lookup l k' = none) :
    ∃ l₁ l₂, lruGet l k = some (w, l₁) ∧ lruSet l₁ c k' v' = some l₂ ∧
      lookup l₂ k = some w := by
  have hF := length_filter_ne_of_nodup l k w hnodup hk
  set F := l.filter (fun p => ¬ (p.1 = k)) with hFdef
  have hkk' : k ≠ k' := by
    intro h; rw [h, hk'] at hk; exact Option.noConfusion hk
  refine ⟨F ++ [(k, w)], ?_, ?_, ?_, ?_⟩
  · exact (F.tail ++ [(k, w)]) ++ [(k', v')]
  · show lruGet l k = some (w, F ++ [(k, w)])
    unfold lruGet
    rw [hk]
  · have hlk' : lookup (F ++ [(k, w)]) k' = none := by
      rw [lookup_append_of_eq_none]
      · rw [lookup_cons]
        simp [hkk', lookup_nil]
      · exact lookup_eq_none_of_subset (List.filter_sublist l).subset hk'
    simp only [lruSet, hlk']
    rw [if_pos (by simp only [List.length_append, List.length_singleton]; omega)]
    cases hFc : F with
    | nil => rw [hFc] at hF; simp at hF; omega
    | cons f₀ F' =>
      simp only [List.cons_append, List.tail_cons]
  · have htail : lookup F.tail k = none :=
      lookup_eq_none_of_subset (List.tail_subset F) (lookup_filter_ne_self l k)
    rw [List.append_assoc, lookup_append_of_eq_none _ htail, List.singleton_append,
      lookup_cons]
    simp

/-- C4: inserting `capacity + 1` distinct keys into a Bounded Recency Cache
evicts exactly the least-recently-accessed key and no other; and a `get` of a
present key refreshes its recency so that, whenever the capacity is at least
2, the refreshed key is not the victim of the next eviction.  (For capacity 1
the refreshed key is still evicted — see the counterexample.) -/
theorem claim_C4_lru_eviction :
    (∀ (c : Nat), 1 ≤ c → ∀ (entries : List (Nat × Nat)),
        (entries.map Prod.fst).Nodup → entries.length = c + 1 →
        lruSetMany [] c entries = some (entries.drop 1)) ∧
    (∀ (c : Nat), 2 ≤ c → ∀ (l : List (Nat × Nat)), l.length = c →
        (l.map Prod.fst).Nodup → ∀ k w, lookup l k = some w →
        ∀ k' v', lookup l k' = none →
        ∃ l₁ l₂, lruGet l k = some (w, l₁) ∧ lruSet l₁ c k' v' = some l₂ ∧
          lookup l₂ k = some w) :=
  ⟨fun c hc e h1 h2 => lru_overflow_evicts_head c hc e h1 h2,
   fun c hc l h1 h2 k w hk k' v' hk' => lru_get_refreshes c hc l h1 h2 k w hk k' v' hk'⟩

/-- C4 counterexample: with capacity 1, a key that was just read via `get` is
still the victim of the next eviction, so "reading a present key refreshes its
recency so that it is not the victim of the next eviction" fails at
capacity 1. -/
theorem claim_C4_counterexample :
    lruGet [((0 : Nat), (10 : Nat))] 0 = some (10, [(0, 10)]) ∧
    lruSet [((0 : Nat), (10 : Nat))] 1 1 20 = some [(1, 20)] ∧
    lookup [((1 : Nat), (20 : Nat))] 0 = none := by decide

/-- C4 witness: the eviction and refresh behaviour on a concrete capacity-2
cache, obtained by instantiating `claim_C4_lru_eviction`. -/
theorem claim_C4_witness :
    (lruSetMany ([] : List (Nat × Nat)) 2 [(0, 10), (1, 11), (2, 12)] =
      some [(1, 11), (2, 12)]) ∧
    (∃ l₁ l₂, lruGet [((0 : Nat), (1 : Nat)), (2, 3)] 0 = some (1, l₁) ∧
      lruSet l₁ 2 5 7 = some l₂ ∧ lookup l₂ 0 = some 1) := by
  constructor
  · have h := claim_C4_lru_eviction.1 2 (by decide) [(0, 10), (1, 11), (2, 12)]
      (by decide) (by decide)
    simpa using h
  · exact claim_C4_lru_eviction.2 2 (by decide) [(0, 1), (2, 3)] (by decide)
      (by decide) 0 1 (by decide) 5 7 (by decide)

/-- C9: for every capacity `c ≥ 1` and every sequence of get/set operations
starting from an empty `LRUCache`, the number of entries never exceeds `c`;
and with capacity 0, inserting a fresh key raises (`popitem` on the empty
`OrderedDict`), modelled as `none`. -/
theorem claim_C9_lru_capacity_invariant :
    (∀ (c : Nat), 1 ≤ c → ∀ (ops : List (CacheOp Nat Nat)) (l' : List (Nat × Nat)),
        runOps c [] ops = some l' → l'.length ≤ c) ∧
    (∀ (k : Nat) (v : Nat), lruSet ([] : List (Nat × Nat)) 0 k v = none) := by
  constructor
  · intro c _ ops l' h
    exact runOps_length_le ops [] l' (by simp) h
  · intro k v
    simp [lruSet, lookup_nil]

/-- C9 witness: a concrete run of five operations against a capacity-2 cache
stays within bounds, and a capacity-0 insert raises. -/
theorem claim_C9_witness :
    (∀ l', runOps 2 [] [CacheOp.set 0 10, CacheOp.set 1 11, CacheOp.get 0,
        CacheOp.set 2 12, CacheOp.get 2] = some l' → l'.length ≤ 2) ∧
    lruSet ([] : List (Nat × Nat)) 0 3 4 = none :=
  ⟨fun l' h => claim_C9_lru_capacity_invariant.1 2 (by decide) _ l' h,
   claim_C9_lru_capacity_invariant.2 3 4⟩

/-! ## Fetchers (httpfs.py lines 67-202)

The remote object's true content is a `List Nat` of byte values; a ranged
request `bytes=start-last` is inclusive of both endpoints.  A server
answers with the object's bytes in the requested range, truncated at
end-of-file. -/

/-- Model of `HttpFetcher.get_data` (lines 157-166): ranged `GET` with header
`Range: bytes=start-last`; `np.frombuffer(r.content)` returns exactly the
bytes the server sent — no padding. -/
def httpGetData (content : List Nat) (start last : Nat) : List Nat :=
  (content.drop start).take (last + 1 - start)

/-- Model of `S3Fetcher.get_data` (lines 193-202): ranged `GET` on the object with
`Range: bytes=start-last`; the streamed body is returned unchanged. -/
def s3GetData (content : List Nat) (start last : Nat) : List Nat :=
  (content.drop start).take (last + 1 - start)

/-- Model of `FtpFetcher.get_data` (lines 95-118): `RETR` with restart offset
`start`, collecting chunks until `amt = end - start` bytes have arrived or
the stream closes early; a short result is zero-padded to `amt` bytes and a
long one truncated to `amt`. -/
def ftpGetData (content : List Nat) (start last : Nat) : List Nat :=
  let amt := last - start
  let data := (content.drop start).take amt
  if data.length < amt then data ++ List.replicate (amt - data.length) 0
  else data.take amt

/-- The `tenacity` wait strategies used by the source's `@retry` decorators. -/
inductive WaitStrategy where
  | fixedPlusRandom (base lo hi : Nat)
  | exponential (multiplier lo hi : Nat)
  deriving DecidableEq

/-- One `@retry(...)` decorator: a wait strategy and an optional attempt cap
(`stop_after_attempt`). -/
structure RetryPolicy where
  wait : WaitStrategy
  stopAfterAttempt : Option Nat
  deriving DecidableEq

/-- Decorator on `HttpFetcher.get_data` (line 157):
`@retry(wait=wait_fixed(1) + wait_random(0, 2), stop=stop_after_attempt(2))`. -/
def httpGetDataRetry : Option RetryPolicy :=
  some ⟨.fixedPlusRandom 1 0 2, some 2⟩

/-- Decorator on `S3Fetcher.get_data` (line 193):
`@retry(wait=wait_exponential(multiplier=1, min=4, max=10))` — no stop
condition, so no attempt cap. -/
def s3GetDataRetry : Option RetryPolicy :=
  some ⟨.exponential 1 4 10, none⟩

/-- Method `FtpFetcher.get_data` (lines 95-118) carries no `@retry` decorator at
all: the method body runs exactly once and any exception propagates. -/
def ftpGetDataRetry : Option RetryPolicy := none

/-- First successful outcome among at most `n` attempts; `attempts i = none`
models a transient failure of the `i`-th attempt. -/
def firstSuccess {α : Type} (attempts : Nat → Option α) : Nat → Option α
  | 0 => none
  | n + 1 =>
    match attempts 0 with
    | some v => some v
    | none => firstSuccess (fun i => attempts (i + 1)) n

/-- Number of attempts a decorated (or undecorated) call may make before
giving up: one for an undecorated method, `n` under `stop_after_attempt(n)`,
and with no stop condition bounded only by the caller's patience (`fuel`). -/
def allowedAttempts (p : Option RetryPolicy) (fuel : Nat) : Nat :=
  match p with
  | none => 1
  | some ⟨_, some n⟩ => n
  | some ⟨_, none⟩ => fuel

/-- Execute a data call under its retry decorator. -/
def runWithRetry {α : Type} (p : Option RetryPolicy) (attempts : Nat → Option α)
    (fuel : Nat) : Option α :=
  firstSuccess attempts (allowedAttempts p fuel)

theorem firstSuccess_of_first_failures {α : Type} :
    ∀ (n fuel : Nat) (attempts : Nat → Option α) (b : α),
    (∀ i < n, attempts i = none) → attempts n = some b → n < fuel →
    firstSuccess attempts fuel = some b := by
  intro n
  induction n with
  | zero =>
    intro fuel attempts b _ hn hfuel
    cases fuel with
    | zero => omega
    | succ f => simp [firstSuccess, hn]
  | succ m ih =>
    intro fuel attempts b hfail hn hfuel
    cases fuel with
    | zero => omega
    | succ f =>
      have h0 : attempts 0 = none := hfail 0 (by omega)
      simp only [firstSuccess, h0]
      exact ih f (fun i => attempts (i + 1)) b
        (fun i hi => hfail (i + 1) (by omega)) hn (by omega)

/-- C5 counterexample: the HTTP fetcher does not pad.  For a one-byte object
and request `bytes=0-4` (five bytes requested), `HttpFetcher.get_data`
returns the single byte the server sent, not five zero-padded bytes. -/
theorem claim_C5_counterexample :
    httpGetData [7] 0 4 = [7] ∧ (httpGetData [7] 0 4).length ≠ 5 := by decide

/-- C5 (amended): only the FTP fetcher pads short server replies with zero
bytes, and it pads to `end - start` bytes (its notion of requested length);
the HTTP and S3 fetchers return exactly the bytes the server sent, so their
blocks at end-of-file are short, not padded. -/
theorem claim_C5_fetcher_padding :
    (∀ (content : List Nat) (start last : Nat),
        (ftpGetData content start last).length = last - start) ∧
    (∀ (content : List Nat) (start last i : Nat),
        min (last - start) (content.length - start) ≤ i → i < last - start →
        (ftpGetData content start last).getD i 0 = 0) ∧
    (∀ (content : List Nat) (start last : Nat),
        (httpGetData content start last).length =
          min (last + 1 - start) (content.length - start)) ∧
    (∀ (content : List Nat) (start last : Nat),
        (s3GetData content start last).length =
          min (last + 1 - start) (content.length - start)) := by
  have hdata : ∀ (content : List Nat) (start amt : Nat),
      ((content.drop start).take amt).length = min amt (content.length - start) := by
    intro content start amt
    simp [List.length_take, List.length_drop]
  refine ⟨?_, ?_, ?_, ?_⟩
  · intro content start last
    simp only [ftpGetData]
    set data := (content.drop start).take (last - start) with hd
    have hdl : data.length = min (last - start) (content.length - start) :=
      hdata content start (last - start)
    by_cases h : data.length < last - start
    · rw [if_pos h]
      simp only [List.length_append, List.length_replicate]
      omega
    · rw [if_neg h]
      simp only [List.length_take]
      omega
  · intro content start last i hmin hi
    simp only [ftpGetData]
    set data := (content.drop start).take (last - start) with hd
    have hdl : data.length = min (last - start) (content.length - start) :=
      hdata content start (last - start)
    by_cases h : data.length < last - start
    · rw [if_pos h]
      rw [List.getD_eq_getElem?_getD, List.getElem?_append_right (by omega),
        List.getElem?_replicate, if_pos (by omega)]
      rfl
    · omega
  · intro content start last
    simp [httpGetData, List.length_take, List.length_drop]
  · intro content start last
    simp [s3GetData, List.length_take, List.length_drop]

/-- C5 witness: the FTP fetcher asked for `bytes` 0 to 3 of a one-byte object
pads positions 1 and 2 with zero. -/
theorem claim_C5_witness :
    (min (3 - 0) (([5] : List Nat).length - 0) ≤ 2 ∧ 2 < 3 - 0) ∧
    (ftpGetData [5] 0 3).getD 2 0 = 0 :=
  ⟨by decide, claim_C5_fetcher_padding.2.1 [5] 0 3 2 (by decide) (by decide)⟩

/-- C6 counterexample: `FtpFetcher.get_data` has no retry decorator, so a
single transient failure propagates to the caller even though a retry would
have succeeded; and its (absent) policy is not the claimed exponential one. -/
theorem claim_C6_counterexample :
    runWithRetry ftpGetDataRetry (fun i => if i = 0 then none else some 42) 5 = none ∧
    ftpGetDataRetry ≠ some ⟨.exponential 1 4 10, none⟩ := by decide

/-- C6 (amended): the exponential-backoff policy (multiplier 1, min 4,
max 10, no attempt cap) decorates the S3 backend's data call, not the FTP
backend's; an FTP data call makes exactly one attempt and propagates a
transient failure, while the uncapped S3 retry returns the first successful
attempt. -/
theorem claim_C6_retry_policies :
    s3GetDataRetry = some ⟨.exponential 1 4 10, none⟩ ∧
    ftpGetDataRetry = none ∧
    (∀ (attempts : Nat → Option Nat) (fuel : Nat),
        runWithRetry ftpGetDataRetry attempts fuel = attempts 0) ∧
    (∀ (attempts : Nat → Option Nat) (n : Nat), (∀ i < n, attempts i = none) →
        ∀ b, attempts n = some b → ∀ fuel, n < fuel →
        runWithRetry s3GetDataRetry attempts fuel = some b) := by
  refine ⟨rfl, rfl, ?_, ?_⟩
  · intro attempts fuel
    cases h : attempts 0 <;>
      simp [runWithRetry, ftpGetDataRetry, allowedAttempts, firstSuccess, h]
  · intro attempts n hfail b hb fuel hfuel
    exact firstSuccess_of_first_failures n fuel attempts b hfail hb hfuel

/-- C6 witness: with attempts failing twice and succeeding on the third try,
the S3 data call succeeds while the FTP data call fails. -/
theorem claim_C6_witness :
    runWithRetry s3GetDataRetry (fun i => if i = 2 then some 9 else none) 5 = some 9 ∧
    runWithRetry ftpGetDataRetry (fun i => if i = 2 then some 9 else none) 5 = none := by
  constructor
  · exact claim_C6_retry_policies.2.2.2 _ 2 (by decide) 9 (by decide) 5 (by decide)
  · rw [claim_C6_retry_policies.2.2.1]
    decide

/-! ## Cache keys (httpfs.py line 402)

`cache_key = "{}.{}.{}".format(url, self.block_size, block_num)` — the URL
and the two numbers joined by dots, the numbers printed in decimal.
`natRepr` below is that decimal formatting, written out so that its
injectivity is provable. -/

/-- Decimal digits, least significant first, with structural fuel so that
the function evaluates by kernel reduction.  With `fuel ≥ n` the fuel never
runs out. -/
def decDigitsAux : Nat → Nat → List Nat
  | _, 0 => []
  | n, fuel + 1 => if n = 0 then [] else (n % 10) :: decDigitsAux (n / 10) fuel

/-- Decimal digits of `n`, least significant first (`[]` for 0). -/
def decDigits (n : Nat) : List Nat := decDigitsAux n n

/-- Value of a least-significant-first digit list. -/
def decVal : List Nat → Nat
  | [] => 0
  | d :: ds => d + 10 * decVal ds

theorem decVal_decDigitsAux : ∀ (fuel n : Nat), n ≤ fuel →
    decVal (decDigitsAux n fuel) = n := by
  intro fuel
  induction fuel with
  | zero =>
    intro n h
    have : n = 0 := by omega
    subst this
    rfl
  | succ f ih =>
    intro n h
    show decVal (if n = 0 then [] else (n % 10) :: decDigitsAux (n / 10) f) = n
    by_cases hz : n = 0
    · simp [hz, decVal]
    · rw [if_neg hz]
      simp only [decVal]
      rw [ih (n / 10) (by omega)]
      omega

theorem decVal_decDigits (n : Nat) : decVal (decDigits n) = n :=
  decVal_decDigitsAux n n (Nat.le_refl n)

theorem decDigits_injective {m n : Nat} (h : decDigits m = decDigits n) : m = n := by
  rw [← decVal_decDigits m, ← decVal_decDigits n, h]

theorem decDigitsAux_lt_ten : ∀ (fuel n : Nat), ∀ d ∈ decDigitsAux n fuel, d < 10 := by
  intro fuel
  induction fuel with
  | zero => intro n d hd; simp [decDigitsAux] at hd
  | succ f ih =>
    intro n d hd
    simp only [decDigitsAux] at hd
    by_cases hz : n = 0
    · simp [hz] at hd
    · rw [if_neg hz] at hd
      rcases List.mem_cons.mp hd with h1 | h2
      · subst h1; exact Nat.mod_lt _ (by norm_num)
      · exact ih (n / 10) d h2

theorem decDigits_lt_ten (n : Nat) : ∀ d ∈ decDigits n, d < 10 :=
  decDigitsAux_lt_ten n n

theorem digitChar_inj_lt :
    ∀ a < 10, ∀ b < 10, Nat.digitChar a = Nat.digitChar b → a = b := by decide

theorem map_digitChar_inj :
    ∀ (xs ys : List Nat), (∀ x ∈ xs, x < 10) → (∀ y ∈ ys, y < 10) →
    xs.map Nat.digitChar = ys.map Nat.digitChar → xs = ys := by
  intro xs
  induction xs with
  | nil =>
    intro ys _ _ h
    cases ys with
    | nil => rfl
    | cons y t => simp at h
  | cons x t ih =>
    intro ys hx hy h
    cases ys with
    | nil => simp at h
    | cons y u =>
      simp only [List.map_cons, List.cons.injEq] at h
      have hxy : x = y :=
        digitChar_inj_lt x (hx x (by simp)) y (hy y (by simp)) h.1
      have htu : t = u := ih u (fun z hz => hx z (by simp [hz]))
        (fun z hz => hy z (by simp [hz])) h.2
      rw [hxy, htu]

/-- The characters of the decimal representation of `n` ("0" for zero,
otherwise the digits most significant first). -/
def natKeyChars (n : Nat) : List Char :=
  if n = 0 then ['0'] else (decDigits n).reverse.map Nat.digitChar

theorem natKeyChars_injective {m n : Nat} (h : natKeyChars m = natKeyChars n) :
    m = n := by
  unfold natKeyChars at h
  by_cases hm : m = 0 <;> by_cases hn : n = 0
  · rw [hm, hn]
  · exfalso
    rw [if_pos hm, if_neg hn] at h
    have hd := map_digitChar_inj (decDigits n).reverse [0]
      (fun d hd => decDigits_lt_ten n d (List.mem_reverse.mp hd))
      (by simp) (by rw [← h]; rfl)
    have : decDigits n = [0] := by
      have := congrArg List.reverse hd
      simpa using this
    have : n = 0 := by
      have hv := decVal_decDigits n
      rw [this] at hv
      simpa [decVal] using hv.symm
    exact hn this
  · exfalso
    rw [if_neg hm, if_pos hn] at h
    have hd := map_digitChar_inj (decDigits m).reverse [0]
      (fun d hd => decDigits_lt_ten m d (List.mem_reverse.mp hd))
      (by simp) (by rw [h]; rfl)
    have : decDigits m = [0] := by
      have := congrArg List.reverse hd
      simpa using this
    have : m = 0 := by
      have hv := decVal_decDigits m
      rw [this] at hv
      simpa [decVal] using hv.symm
    exact hm this
  · rw [if_neg hm, if_neg hn] at h
    have hd := map_digitChar_inj (decDigits m).reverse (decDigits n).reverse
      (fun d hdm => decDigits_lt_ten m d (List.mem_reverse.mp hdm))
      (fun d hdn => decDigits_lt_ten n d (List.mem_reverse.mp hdn)) h
    exact decDigits_injective (List.reverse_injective hd)

/-- Decimal rendering of a natural number, as `"{}".format` prints it. -/
def natRepr (n : Nat) : String := ⟨natKeyChars n⟩

theorem natRepr_samples : natRepr 0 = "0" ∧ natRepr 7 = "7" ∧
    natRepr 1234 = "1234" := by decide

/-- Cache key `"{}.{}.{}".format(url, self.block_size, block_num)` (line 402). -/
def mkKey (url : String) (blockSize blockNum : Nat) : String :=
  url ++ "." ++ natRepr blockSize ++ "." ++ natRepr blockNum

/-- For a fixed URL and block size, distinct block numbers get distinct
cache keys. -/
theorem mkKey_inj_blockNum {url : String} {B : Nat} {m n : Nat}
    (h : mkKey url B m = mkKey url B n) : m = n := by
  unfold mkKey at h
  have hdata := congrArg String.data h
  simp only [String.data_append] at hdata
  have := List.append_cancel_left hdata
  exact natKeyChars_injective (by simpa [natRepr] using this)

/-! ## HttpFs state and `get_block` (httpfs.py lines 205-251, 391-435)

The engine instance for the default `http`/`https` schema: the in-memory
`LRUCache` for blocks, the `diskcache` persistent store (modelled as a
plain association-list map whose lookups always succeed, so the
`except KeyError` guard around the disk read never fires on a read — but
it also catches a `KeyError` raised by the LRU insert on line 419, which
the model reproduces), and the hit/miss counters from `__init__`.
`fetch_count` counts invocations of `self.fetcher.get_data`, the
observable the single-flight and tier-order claims speak about. -/

structure FsState where
  lruCapacity : Nat
  lru : List (String × List Nat)
  disk : List (String × List Nat)
  total_blocks : Nat
  lru_hits : Nat
  lru_misses : Nat
  disk_hits : Nat
  disk_misses : Nat
  fetch_count : Nat
  deriving Repr, DecidableEq

/-- Model of `__init__` (lines 211-251): empty caches, all counters zero. -/
def initState (lru_capacity : Nat) : FsState :=
  ⟨lru_capacity, [], [], 0, 0, 0, 0, 0, 0⟩

/-- Store assignment `self.disk_cache[cache_key] = block_data`: plain map update. -/
def setAssoc {κ α : Type} [DecidableEq κ] (l : List (κ × α)) (k : κ) (v : α) :
    List (κ × α) :=
  (k, v) :: l.filter (fun p => ¬ (p.1 = k))

/-- The block a correct ranged fetch yields: `get_block` computes
`block_start = block_num * self.block_size` and requests
`bytes=block_start-(block_start + block_size - 1)` (lines 425-430). -/
def blockData (content : List Nat) (B bn : Nat) : List Nat :=
  httpGetData content (bn * B) (bn * B + B - 1)

/-- The fetch-and-store tail of `get_block` (lines 424-435), reached on a
miss in both cache tiers and also when a disk hit's LRU insert raises
`KeyError` (caught by the `except KeyError: pass` on lines 421-422). -/
def get_block_fetch (content : List Nat) (B : Nat) (url : String) (bn : Nat)
    (key : String) (st : FsState) : Option (List Nat × FsState) :=
  let st₁ := { st with disk_misses := st.disk_misses + 1 }
  let bd := httpGetData content (bn * B) (bn * B + B - 1)
  let st₂ := { st₁ with fetch_count := st₁.fetch_count + 1 }
  match lruSet st₂.lru st₂.lruCapacity key bd with
  | none => none
  | some lru' =>
    some (bd, { st₂ with lru := lru', disk := setAssoc st₂.disk key bd })

/-- Model of `HttpFs.get_block` (lines 391-435): memory tier, then disk tier, then
the fetcher, each updating its counter; a disk hit repopulates the memory
tier; a fetch populates both tiers. -/
def get_block (content : List Nat) (B : Nat) (url : String) (bn : Nat)
    (st : FsState) : Option (List Nat × FsState) :=
  let key := mkKey url B bn
  let st₀ := { st with total_blocks := st.total_blocks + 1 }
  match lruGet st₀.lru key with
  | some (hit, lru') =>
    some (hit, { st₀ with lru := lru', lru_hits := st₀.lru_hits + 1 })
  | none =>
    let st₁ := { st₀ with lru_misses := st₀.lru_misses + 1 }
    match lookup st₁.disk key with
    | some bd =>
      let st₂ := { st₁ with disk_hits := st₁.disk_hits + 1 }
      match lruSet st₂.lru st₂.lruCapacity key bd with
      | some lru' => some (bd, { st₂ with lru := lru' })
      | none => get_block_fetch content B url bn key st₂
    | none => get_block_fetch content B url bn key st₁

/-! ## Cache coherence

Every entry either cache tier holds for a block key of the mounted file is
the block a correct ranged fetch would return.  Both tiers start empty, and
`get_block` only ever stores fetched blocks, so coherence is an invariant;
it is what makes a cache hit indistinguishable from a fresh fetch. -/

/-- Every entry of `l` whose key is the cache key of block `bn` holds
exactly that block's true data. -/
def CoherentList (content : List Nat) (B : Nat) (url : String)
    (l : List (String × List Nat)) : Prop :=
  ∀ p ∈ l, ∀ bn, p.1 = mkKey url B bn → p.2 = blockData content B bn

/-- Both tiers of the engine state are coherent. -/
def Coherent (content : List Nat) (B : Nat) (url : String) (st : FsState) : Prop :=
  CoherentList content B url st.lru ∧ CoherentList content B url st.disk

theorem coherentList_nil (content : List Nat) (B : Nat) (url : String) :
    CoherentList content B url [] := by
  intro p hp
  exact absurd hp (List.not_mem_nil p)

theorem coherent_initState (content : List Nat) (B : Nat) (url : String)
    (cap : Nat) : Coherent content B url (initState cap) :=
  ⟨coherentList_nil content B url, coherentList_nil content B url⟩

theorem coherentList_of_subset {content : List Nat} {B : Nat} {url : String}
    {l l' : List (String × List Nat)} (hsub : l' ⊆ l)
    (h : CoherentList content B url l) : CoherentList content B url l' :=
  fun p hp => h p (hsub hp)

/-- Appending the true data of block `bn` under its own key preserves
coherence (key injectivity in the block number is what makes this safe). -/
theorem coherentList_append_block {content : List Nat} {B : Nat} {url : String}
    {l : List (String × List Nat)} (h : CoherentList content B url l) (bn : Nat) :
    CoherentList content B url (l ++ [(mkKey url B bn, blockData content B bn)]) := by
  intro p hp bn' hkey
  rcases List.mem_append.mp hp with hl | hr
  · exact h p hl bn' hkey
  · have hp' : p = (mkKey url B bn, blockData content B bn) := by simpa using hr
    subst hp'
    simp only at hkey
    rw [← mkKey_inj_blockNum hkey]

/-- With positive capacity, `LRUCache.__setitem__` always succeeds, and the
resulting list is contained in the old entries plus the new pair. -/
theorem lruSet_pos_cap {κ α : Type} [DecidableEq κ]
    (l : List (κ × α)) (cap : Nat) (hcap : 1 ≤ cap) (k : κ) (v : α) :
    ∃ l', lruSet l cap k v = some l' ∧ l' ⊆ l ++ [(k, v)] := by
  unfold lruSet
  cases hl : lookup l k with
  | some w =>
    refine ⟨_, rfl, ?_⟩
    intro p hp
    rcases List.mem_append.mp hp with hf | hr
    · exact List.mem_append.mpr (Or.inl ((List.filter_sublist l).subset hf))
    · exact List.mem_append.mpr (Or.inr hr)
  | none =>
    by_cases hfull : l.length ≥ cap
    · rw [if_pos hfull]
      cases l with
      | nil => simp at hfull; omega
      | cons p t =>
        refine ⟨_, rfl, ?_⟩
        intro q hq
        rcases List.mem_append.mp hq with hf | hr
        · exact List.mem_append.mpr (Or.inl (List.mem_cons_of_mem p hf))
        · exact List.mem_append.mpr (Or.inr hr)
    · rw [if_neg hfull]
      exact ⟨_, rfl, fun q hq => hq⟩

/-- Path equation of `get_block`: memory-tier hit. -/
theorem get_block_eq_lru_hit {content : List Nat} {B : Nat} {url : String}
    {bn : Nat} {st : FsState} {v : List Nat} {lru' : List (String × List Nat)}
    (h : lruGet st.lru (mkKey url B bn) = some (v, lru')) :
    get_block content B url bn st = some (v,
      { st with total_blocks := st.total_blocks + 1, lru := lru',
                lru_hits := st.lru_hits + 1 }) := by
  dsimp only [get_block]
  rw [h]

/-- Path equation of `get_block`: memory miss, disk hit, successful LRU
repopulation. -/
theorem get_block_eq_disk_hit {content : List Nat} {B : Nat} {url : String}
    {bn : Nat} {st : FsState} {bd : List Nat} {lru' : List (String × List Nat)}
    (h1 : lruGet st.lru (mkKey url B bn) = none)
    (h2 : lookup st.disk (mkKey url B bn) = some bd)
    (h3 : lruSet st.lru st.lruCapacity (mkKey url B bn) bd = some lru') :
    get_block content B url bn st = some (bd,
      { st with total_blocks := st.total_blocks + 1,
                lru_misses := st.lru_misses + 1, disk_hits := st.disk_hits + 1,
                lru := lru' }) := by
  dsimp only [get_block]
  rw [h1]
  dsimp only
  rw [h2]
  dsimp only
  rw [h3]

/-- Path equation of `get_block`: miss in both tiers, fetch and populate both. -/
theorem get_block_eq_fetch {content : List Nat} {B : Nat} {url : String}
    {bn : Nat} {st : FsState} {lru' : List (String × List Nat)}
    (h1 : lruGet st.lru (mkKey url B bn) = none)
    (h2 : lookup st.disk (mkKey url B bn) = none)
    (h3 : lruSet st.lru st.lruCapacity (mkKey url B bn)
      (blockData content B bn) = some lru') :
    get_block content B url bn st = some (blockData content B bn,
      { st with total_blocks := st.total_blocks + 1,
                lru_misses := st.lru_misses + 1, disk_misses := st.disk_misses + 1,
                fetch_count := st.fetch_count + 1, lru := lru',
                disk := setAssoc st.disk (mkKey url B bn)
                  (blockData content B bn) }) := by
  dsimp only [get_block]
  rw [h1]
  dsimp only
  rw [h2]
  dsimp only [get_block_fetch]
  rw [show httpGetData content (bn * B) (bn * B + B - 1) =
    blockData content B bn from rfl]
  rw [h3]

theorem lruGet_eq_none_iff {κ α : Type} [DecidableEq κ]
    {l : List (κ × α)} {k : κ} : lruGet l k = none ↔ lookup l k = none := by
  unfold lruGet
  cases lookup l k <;> simp

/-- Running `get_block` in a coherent state with positive LRU capacity returns the
true block data and preserves coherence and capacity. -/
theorem get_block_coherent {content : List Nat} {B : Nat} {url : String}
    {bn : Nat} {st : FsState} (hco : Coherent content B url st)
    (hcap : 1 ≤ st.lruCapacity) :
    ∃ st', get_block content B url bn st = some (blockData content B bn, st') ∧
      Coherent content B url st' ∧ st'.lruCapacity = st.lruCapacity := by
  cases hl : lookup st.lru (mkKey url B bn) with
  | some v =>
    have hhit : v = blockData content B bn :=
      hco.1 _ (mem_of_lookup_eq_some hl) bn rfl
    subst hhit
    have hget : lruGet st.lru (mkKey url B bn) =
        some (blockData content B bn,
          st.lru.filter (fun p => ¬ (p.1 = mkKey url B bn)) ++
            [(mkKey url B bn, blockData content B bn)]) := by
      unfold lruGet
      rw [hl]
    refine ⟨_, get_block_eq_lru_hit hget, ⟨?_, hco.2⟩, rfl⟩
    refine coherentList_of_subset ?_ (coherentList_append_block hco.1 bn)
    intro p hp
    rcases List.mem_append.mp hp with hf | hr
    · exact List.mem_append.mpr (Or.inl ((List.filter_sublist _).subset hf))
    · exact List.mem_append.mpr (Or.inr hr)
  | none =>
    have hget : lruGet st.lru (mkKey url B bn) = none := lruGet_eq_none_iff.mpr hl
    cases hdisk : lookup st.disk (mkKey url B bn) with
    | some bd =>
      have hbd : bd = blockData content B bn :=
        hco.2 _ (mem_of_lookup_eq_some hdisk) bn rfl
      subst hbd
      obtain ⟨lru', hset, hsub⟩ :=
        lruSet_pos_cap st.lru st.lruCapacity hcap
          (mkKey url B bn) (blockData content B bn)
      exact ⟨_, get_block_eq_disk_hit hget hdisk hset,
        ⟨coherentList_of_subset hsub (coherentList_append_block hco.1 bn), hco.2⟩,
        rfl⟩
    | none =>
      obtain ⟨lru', hset, hsub⟩ :=
        lruSet_pos_cap st.lru st.lruCapacity hcap
          (mkKey url B bn) (blockData content B bn)
      refine ⟨_, get_block_eq_fetch hget hdisk hset,
        ⟨coherentList_of_subset hsub (coherentList_append_block hco.1 bn), ?_⟩,
        rfl⟩
      intro p hp bn' hkey
      simp only [setAssoc] at hp
      rcases List.mem_cons.mp hp with h1 | h2
      · subst h1
        rw [← mkKey_inj_blockNum hkey]
      · exact hco.2 p ((List.filter_sublist _).subset h2) bn' hkey

theorem lruSet_eq_none_iff {κ α : Type} [DecidableEq κ]
    {l : List (κ × α)} {cap : Nat} {k : κ} {v : α} :
    lruSet l cap k v = none ↔ l = [] ∧ cap = 0 := by
  constructor
  · intro h
    unfold lruSet at h
    cases hl : lookup l k with
    | some w => rw [hl] at h; simp at h
    | none =>
      rw [hl] at h
      by_cases hfull : l.length ≥ cap
      · rw [if_pos hfull] at h
        cases l with
        | nil => simp at hfull; exact ⟨rfl, by omega⟩
        | cons p t => simp at h
      · rw [if_neg hfull] at h
        simp at h
  · rintro ⟨hl, hcap⟩
    subst hl; subst hcap
    rfl

theorem lookup_lruSet_self {κ α : Type} [DecidableEq κ]
    {l : List (κ × α)} {cap : Nat} {k : κ} {v : α} {l' : List (κ × α)}
    (hl : lookup l k = none) (h : lruSet l cap k v = some l') :
    lookup l' k = some v := by
  unfold lruSet at h
  rw [hl] at h
  have hk : ∀ (t : List (κ × α)), t ⊆ l → lookup (t ++ [(k, v)]) k = some v := by
    intro t hsub
    rw [lookup_append_of_eq_none _ (lookup_eq_none_of_subset hsub hl), lookup_cons]
    simp
  by_cases hfull : l.length ≥ cap
  · rw [if_pos hfull] at h
    cases l with
    | nil => simp at h
    | cons p t =>
      simp only [Option.some.injEq] at h
      subst h
      exact hk t (List.subset_cons_self p t)
  · rw [if_neg hfull] at h
    simp only [Option.some.injEq] at h
    subst h
    exact hk l (fun x hx => hx)

theorem lookup_setAssoc_self {κ α : Type} [DecidableEq κ]
    (l : List (κ × α)) (k : κ) (v : α) :
    lookup (setAssoc l k v) k = some v := by
  unfold setAssoc
  rw [lookup_cons]
  simp

/-- When the memory-tier repopulation raises on a degenerate capacity-0
cache, the subsequent fetch path raises too: the whole call fails. -/
theorem get_block_eq_none {content : List Nat} {B : Nat} {url : String}
    {bn : Nat} {st : FsState}
    (h1 : lruGet st.lru (mkKey url B bn) = none)
    (hnil : st.lru = []) (hcap : st.lruCapacity = 0) :
    get_block content B url bn st = none := by
  have hset : ∀ v, lruSet st.lru st.lruCapacity (mkKey url B bn) v = none :=
    fun v => lruSet_eq_none_iff.mpr ⟨hnil, hcap⟩
  dsimp only [get_block, get_block_fetch]
  rw [h1]
  dsimp only
  cases lookup st.disk (mkKey url B bn) with
  | some bd =>
    dsimp only
    rw [hset bd]
    dsimp only
    rw [hset _]
  | none =>
    dsimp only
    rw [hset _]

/-- C3: `get_block` consults the in-memory LRU cache first, then the disk
store, then the fetcher, in that order: a memory hit returns the cached
block touching neither the disk store nor the fetcher; a disk hit returns
the stored block, populates the memory tier, and does not invoke the
fetcher; a double miss invokes the fetcher exactly once and populates both
tiers with the fetched block before returning it. -/
theorem claim_C3_tier_order :
    (∀ (content : List Nat) (B : Nat) (url : String) (bn : Nat) (st : FsState)
        (v : List Nat) (lru' : List (String × List Nat)),
        lruGet st.lru (mkKey url B bn) = some (v, lru') →
        ∃ st', get_block content B url bn st = some (v, st') ∧
          st'.disk = st.disk ∧ st'.fetch_count = st.fetch_count ∧
          st'.lru_hits = st.lru_hits + 1) ∧
    (∀ (content : List Nat) (B : Nat) (url : String) (bn : Nat) (st : FsState)
        (bd : List Nat),
        lruGet st.lru (mkKey url B bn) = none →
        lookup st.disk (mkKey url B bn) = some bd →
        1 ≤ st.lruCapacity →
        ∃ st', get_block content B url bn st = some (bd, st') ∧
          lookup st'.lru (mkKey url B bn) = some bd ∧
          st'.disk = st.disk ∧ st'.fetch_count = st.fetch_count ∧
          st'.disk_hits = st.disk_hits + 1) ∧
    (∀ (content : List Nat) (B : Nat) (url : String) (bn : Nat) (st : FsState),
        lruGet st.lru (mkKey url B bn) = none →
        lookup st.disk (mkKey url B bn) = none →
        1 ≤ st.lruCapacity →
        ∃ st', get_block content B url bn st =
            some (blockData content B bn, st') ∧
          st'.fetch_count = st.fetch_count + 1 ∧
          lookup st'.lru (mkKey url B bn) = some (blockData content B bn) ∧
          lookup st'.disk (mkKey url B bn) = some (blockData content B bn)) := by
  refine ⟨?_, ?_, ?_⟩
  · intro content B url bn st v lru' h
    exact ⟨_, get_block_eq_lru_hit h, rfl, rfl, rfl⟩
  · intro content B url bn st bd h1 h2 hcap
    obtain ⟨lru', hset, _⟩ :=
      lruSet_pos_cap st.lru st.lruCapacity hcap (mkKey url B bn) bd
    refine ⟨_, get_block_eq_disk_hit h1 h2 hset, ?_, rfl, rfl, rfl⟩
    exact lookup_lruSet_self (lruGet_eq_none_iff.mp h1) hset
  · intro content B url bn st h1 h2 hcap
    obtain ⟨lru', hset, _⟩ :=
      lruSet_pos_cap st.lru st.lruCapacity hcap (mkKey url B bn)
        (blockData content B bn)
    refine ⟨_, get_block_eq_fetch h1 h2 hset, rfl, ?_, ?_⟩
    · exact lookup_lruSet_self (lruGet_eq_none_iff.mp h1) hset
    · exact lookup_setAssoc_self st.disk _ _

/-- C10: counters only grow, and a completed `get_block` preserves the two
counter identities `total_blocks = lru_hits + lru_misses` and
`lru_misses = disk_hits + disk_misses`, which hold of the freshly
initialised engine. -/
theorem claim_C10_counter_invariants :
    (∀ cap : Nat,
        (initState cap).total_blocks =
          (initState cap).lru_hits + (initState cap).lru_misses ∧
        (initState cap).lru_misses =
          (initState cap).disk_hits + (initState cap).disk_misses) ∧
    (∀ (content : List Nat) (B : Nat) (url : String) (bn : Nat) (st : FsState)
        (r : List Nat) (st' : FsState),
        get_block content B url bn st = some (r, st') →
        (st.total_blocks = st.lru_hits + st.lru_misses →
          st'.total_blocks = st'.lru_hits + st'.lru_misses) ∧
        (st.lru_misses = st.disk_hits + st.disk_misses →
          st'.lru_misses = st'.disk_hits + st'.disk_misses) ∧
        st.total_blocks ≤ st'.total_blocks ∧ st.lru_hits ≤ st'.lru_hits ∧
        st.lru_misses ≤ st'.lru_misses ∧ st.disk_hits ≤ st'.disk_hits ∧
        st.disk_misses ≤ st'.disk_misses ∧
        st.fetch_count ≤ st'.fetch_count) := by
  refine ⟨fun cap => ⟨rfl, rfl⟩, ?_⟩
  intro content B url bn st r st' h
  cases hlru : lruGet st.lru (mkKey url B bn) with
  | some pr =>
    obtain ⟨v, lru'⟩ := pr
    rw [get_block_eq_lru_hit hlru] at h
    simp only [Option.some.injEq, Prod.mk.injEq] at h
    obtain ⟨-, hst⟩ := h
    subst hst
    simp only
    omega
  | none =>
    cases hdisk : lookup st.disk (mkKey url B bn) with
    | some bd =>
      cases hset : lruSet st.lru st.lruCapacity (mkKey url B bn) bd with
      | some lru' =>
        rw [get_block_eq_disk_hit hlru hdisk hset] at h
        simp only [Option.some.injEq, Prod.mk.injEq] at h
        obtain ⟨-, hst⟩ := h
        subst hst
        simp only
        omega
      | none =>
        obtain ⟨hnil, hcap⟩ := lruSet_eq_none_iff.mp hset
        rw [get_block_eq_none hlru hnil hcap] at h
        exact absurd h (by simp)
    | none =>
      cases hset : lruSet st.lru st.lruCapacity (mkKey url B bn)
          (blockData content B bn) with
      | some lru' =>
        rw [get_block_eq_fetch hlru hdisk hset] at h
        simp only [Option.some.injEq, Prod.mk.injEq] at h
        obtain ⟨-, hst⟩ := h
        subst hst
        simp only
        omega
      | none =>
        obtain ⟨hnil, hcap⟩ := lruSet_eq_none_iff.mp hset
        rw [get_block_eq_none hlru hnil hcap] at h
        exact absurd h (by simp)

/-- C3 witness: each of the three tiers observed on concrete one-block
states: a memory hit, a disk hit, and a double-miss fetch. -/
theorem claim_C3_witness :
    (∃ st', get_block [9] 1 "u" 0
        ⟨1, [(mkKey "u" 1 0, [9])], [], 0, 0, 0, 0, 0, 0⟩ = some ([9], st') ∧
      st'.disk = [] ∧ st'.fetch_count = 0 ∧ st'.lru_hits = 0 + 1) ∧
    (∃ st', get_block [8, 8] 1 "u" 1
        ⟨1, [], [(mkKey "u" 1 1, [8])], 5, 2, 3, 1, 2, 2⟩ = some ([8], st') ∧
      lookup st'.lru (mkKey "u" 1 1) = some [8] ∧
      st'.disk = [(mkKey "u" 1 1, [8])] ∧ st'.fetch_count = 2 ∧
      st'.disk_hits = 1 + 1) ∧
    (∃ st', get_block [3, 4] 1 "u" 0 (initState 1) =
        some (blockData [3, 4] 1 0, st') ∧
      st'.fetch_count = 0 + 1 ∧
      lookup st'.lru (mkKey "u" 1 0) = some (blockData [3, 4] 1 0) ∧
      lookup st'.disk (mkKey "u" 1 0) = some (blockData [3, 4] 1 0)) := by
  refine ⟨?_, ?_, ?_⟩
  · exact claim_C3_tier_order.1 [9] 1 "u" 0
      ⟨1, [(mkKey "u" 1 0, [9])], [], 0, 0, 0, 0, 0, 0⟩ [9]
      [(mkKey "u" 1 0, [9])] (by decide)
  · exact claim_C3_tier_order.2.1 [8, 8] 1 "u" 1
      ⟨1, [], [(mkKey "u" 1 1, [8])], 5, 2, 3, 1, 2, 2⟩ [8]
      (by decide) (by decide) (by decide)
  · exact claim_C3_tier_order.2.2 [3, 4] 1 "u" 0 (initState 1)
      (by decide) (by decide) (by decide)

/-- C10 witness: a concrete double-miss `get_block` run from the fresh
engine state keeps both counter identities. -/
theorem claim_C10_witness :
    ∃ st', get_block [3, 4] 1 "u" 0 (initState 1) = some ([3], st') ∧
      st'.total_blocks = st'.lru_hits + st'.lru_misses ∧
      st'.lru_misses = st'.disk_hits + st'.disk_misses ∧
      (initState 1).total_blocks ≤ st'.total_blocks := by
  have hrun : get_block [3, 4] 1 "u" 0 (initState 1) =
      some ([3], ⟨1, [("u.1.0", [3])], [("u.1.0", [3])], 1, 0, 1, 0, 1, 1⟩) := by
    decide
  have h := claim_C10_counter_invariants.2 [3, 4] 1 "u" 0 (initState 1) [3] _ hrun
  exact ⟨_, hrun, h.1 rfl, h.2.1 rfl, h.2.2.1⟩

/-! ## `HttpFs.read` (httpfs.py lines 314-386)

`read` allocates a zero-filled output buffer of `size` bytes (modelled as a
function `Nat → Nat`), then loops: starting from `last_fetched = -1` and
`curr_start = offset`, while `last_fetched < offset + size` it fetches the
block containing `curr_start` via `get_block`, copies the sub-slice
`block_data[data_start:data_end]` to position `curr_start - offset` of the
buffer, and advances both `last_fetched` and `curr_start` by
`data_end - data_start`.  Finally it returns `bytes(output)`.  (The
`attr = self.getattr(path)` call on line 335 only checks existence — its
value is unused — so the model starts from the URL with the attribute
lookup assumed successful.)  The loop always makes progress, so a fuel of
`size + 2` iterations is never exhausted; `none` models a propagated
exception. -/

def readLoop (content : List Nat) (B : Nat) (url : String) (offset size : Nat) :
    Nat → Int → Nat → (Nat → Nat) → FsState → Option ((Nat → Nat) × FsState)
  | 0, _, _, _, _ => none
  | fuel + 1, last, cur, out, st =>
    if last < ((offset + size : Nat) : Int) then
      match get_block content B url (cur / B) st with
      | none => none
      | some (bd, st₁) =>
        let bs := B * (cur / B)
        let ds := cur - bs
        let de := min B (offset + size - bs)
        let data := (bd.drop ds).take (de - ds)
        let d0 := cur - offset
        readLoop content B url offset size fuel
          ((cur + (de - ds) : Nat) : Int) (cur + (de - ds))
          (fun i => if d0 ≤ i ∧ i < d0 + data.length
            then data.getD (i - d0) 0 else out i)
          st₁
    else some (out, st)

/-- Model of `HttpFs.read` (lines 314-386): run the loop, then `bytes(output)`. -/
def read (content : List Nat) (B : Nat) (url : String) (offset size : Nat)
    (st : FsState) : Option (List Nat × FsState) :=
  match readLoop content B url offset size (size + 2) (-1) offset
      (fun _ => 0) st with
  | none => none
  | some (out, st') => some ((List.range size).map out, st')

/-- The byte `read` must deliver at output position `i`: the remote byte at
`offset + i` while in range, 0 past end-of-file. -/
def readTarget (content : List Nat) (offset i : Nat) : Nat :=
  if offset + i < content.length then content.getD (offset + i) 0 else 0

theorem blockData_eq_take {content : List Nat} {B bn : Nat} (hB : 1 ≤ B) :
    blockData content B bn = (content.drop (B * bn)).take B := by
  unfold blockData httpGetData
  rw [Nat.mul_comm bn B]
  congr 1
  omega

theorem getD_drop_take {content : List Nat} {cur m j : Nat} (hj : j < m) :
    ((content.drop cur).take m).getD j 0 = content.getD (cur + j) 0 := by
  rw [List.getD_eq_getElem?_getD, List.getD_eq_getElem?_getD, List.getElem?_take,
    if_pos hj, List.getElem?_drop]

/-- Core correctness of one buffer splice: copying
`(content.drop cur).take prog` to position `cur - offset` extends the
already-correct prefix of the output buffer to `cur + prog - offset` and
keeps the rest zero (in particular the zero-fill beyond end-of-file). -/
theorem splice_spec {content : List Nat} {offset cur prog : Nat}
    {out out' : Nat → Nat} (hoc : offset ≤ cur)
    (hinv1 : ∀ i, i < cur - offset → out i = readTarget content offset i)
    (hinv2 : ∀ i, cur - offset ≤ i → out i = 0)
    (hout' : ∀ i, out' i = if cur - offset ≤ i ∧
        i < (cur - offset) + ((content.drop cur).take prog).length
      then ((content.drop cur).take prog).getD (i - (cur - offset)) 0
      else out i) :
    (∀ i, i < (cur + prog) - offset → out' i = readTarget content offset i) ∧
    (∀ i, (cur + prog) - offset ≤ i → out' i = 0) := by
  have hlen : ((content.drop cur).take prog).length =
      min prog (content.length - cur) := by
    simp [List.length_take, List.length_drop]
  constructor
  · intro i hi
    rw [hout' i]
    by_cases h1 : i < cur - offset
    · rw [if_neg (by rintro ⟨hA, -⟩; omega)]
      exact hinv1 i h1
    · by_cases h2 : i < (cur - offset) + ((content.drop cur).take prog).length
      · rw [if_pos ⟨by omega, h2⟩]
        have hj : i - (cur - offset) < prog := by omega
        rw [getD_drop_take hj]
        rw [show cur + (i - (cur - offset)) = offset + i from by omega]
        unfold readTarget
        rw [if_pos (by omega)]
      · rw [if_neg (by rintro ⟨-, hB2⟩; omega)]
        rw [hinv2 i (by omega)]
        unfold readTarget
        rw [if_neg (by omega)]
  · intro i hi
    rw [hout' i]
    rw [if_neg (by rintro ⟨-, hB2⟩; omega)]
    exact hinv2 i (by omega)

/-- Loop invariant of `read`'s while-loop: in a coherent state the loop
terminates within its fuel and fills the whole requested window with the
target bytes. -/
theorem readLoop_spec {content : List Nat} {B : Nat} {url : String}
    {offset size : Nat} (hB : 1 ≤ B) :
    ∀ (fuel : Nat) (last : Int) (cur : Nat) (out : Nat → Nat) (st : FsState),
    Coherent content B url st → 1 ≤ st.lruCapacity →
    offset ≤ cur → cur ≤ offset + size →
    last ≤ (cur : Int) →
    (offset + size - cur) + 2 ≤ fuel →
    (∀ i, i < cur - offset → out i = readTarget content offset i) →
    (∀ i, cur - offset ≤ i → out i = 0) →
    ∃ out' st', readLoop content B url offset size fuel last cur out st =
        some (out', st') ∧
      Coherent content B url st' ∧ st'.lruCapacity = st.lruCapacity ∧
      ∀ i, i < size → out' i = readTarget content offset i := by
  intro fuel
  induction fuel with
  | zero =>
    intro last cur out st _ _ _ _ _ hfuel _ _
    omega
  | succ f ih =>
    intro last cur out st hco hcap hoc hcs hlc hfuel hinv1 hinv2
    by_cases hlt : last < ((offset + size : Nat) : Int)
    · -- one more pass of the loop body
      obtain ⟨st₁, hgb, hco₁, hcap₁⟩ :=
        @get_block_coherent content B url (cur / B) st hco hcap
      dsimp only [readLoop]
      rw [if_pos hlt, hgb]
      have hbsle : B * (cur / B) ≤ cur := by
        rw [Nat.mul_comm]
        exact Nat.div_mul_le_self cur B
      have hmod : cur - B * (cur / B) < B := by
        have h := Nat.mod_add_div cur B
        have h2 : cur % B < B := Nat.mod_lt _ (by omega)
        omega
      set bs := B * (cur / B) with hbs
      set ds := cur - bs with hds
      set de := min B (offset + size - bs) with hde
      have hdata : ((blockData content B (cur / B)).drop ds).take (de - ds) =
          (content.drop cur).take (de - ds) := by
        rw [blockData_eq_take hB, ← hbs, List.drop_take, List.drop_drop]
        rw [show bs + ds = cur from by omega]
        rw [List.take_take]
        rw [show min (de - ds) (B - ds) = de - ds from by omega]
      simp only [hdata]
      have hsplice := @splice_spec content offset cur (de - ds) out
        (fun i =>
          if cur - offset ≤ i ∧
              i < (cur - offset) + ((content.drop cur).take (de - ds)).length
            then ((content.drop cur).take (de - ds)).getD (i - (cur - offset)) 0
            else out i)
        hoc hinv1 hinv2 (fun i => rfl)
      by_cases hprog : cur < offset + size
      · have h1 : ds < de := by omega
        obtain ⟨o, s, heq, hcos, hcaps, htar⟩ := ih
          ((cur + (de - ds) : Nat) : Int) (cur + (de - ds)) _ st₁ hco₁
          (by rw [hcap₁]; exact hcap) (by omega) (by omega) (le_refl _)
          (by omega) hsplice.1 hsplice.2
        exact ⟨o, s, heq, hcos, by rw [hcaps, hcap₁], htar⟩
      · have hc : cur = offset + size := by omega
        have hprog0 : de = ds := by omega
        cases f with
        | zero => omega
        | succ f' =>
          dsimp only [readLoop]
          rw [if_neg (by omega)]
          refine ⟨_, st₁, rfl, hco₁, hcap₁, ?_⟩
          intro i hi
          exact hsplice.1 i (by omega)
    · -- loop exit: everything already fetched
      have hcur : cur = offset + size := by omega
      refine ⟨out, st, ?_, hco, rfl, ?_⟩
      · dsimp only [readLoop]
        rw [if_neg hlt]
      · intro i hi
        exact hinv1 i (by omega)

/-- Running `read` in a coherent state returns a `size`-byte buffer holding the
target bytes. -/
theorem read_spec {content : List Nat} {B : Nat} {url : String}
    {offset size : Nat} {st : FsState} (hB : 1 ≤ B)
    (hco : Coherent content B url st) (hcap : 1 ≤ st.lruCapacity) :
    ∃ out st', read content B url offset size st = some (out, st') ∧
      out.length = size ∧
      ∀ i, i < size → out.getD i 0 = readTarget content offset i := by
  obtain ⟨o, s, heq, _, _, htar⟩ := @readLoop_spec content B url offset size hB
    (size + 2) (-1) offset (fun _ => 0) st hco hcap (le_refl offset)
    (by omega) (by omega) (by omega)
    (fun i hi => absurd hi (by omega)) (fun i _ => rfl)
  refine ⟨(List.range size).map o, s, ?_, by simp, ?_⟩
  · unfold read
    rw [heq]
  · intro i hi
    rw [List.getD_eq_getElem?_getD, List.getElem?_map, List.getElem?_range hi]
    simp only [Option.map_some', Option.getD_some]
    exact htar i hi

/-- C1: for every file with known remote content and every valid
(offset, length) window — `0 ≤ offset`, `0 ≤ length`,
`offset + length ≤ file size` — `read` returns exactly `length` bytes whose
content equals the slice `[offset, offset + length)` of the remote object.
Stated over any coherent engine state (e.g. a fresh mount) with positive
block size and LRU capacity. -/
theorem claim_C1_read_returns_slice {content : List Nat} {B : Nat}
    {url : String} {offset size : Nat} {st : FsState} (hB : 1 ≤ B)
    (hco : Coherent content B url st) (hcap : 1 ≤ st.lruCapacity)
    (hvalid : offset + size ≤ content.length) :
    ∃ st', read content B url offset size st =
        some ((content.drop offset).take size, st') ∧
      ((content.drop offset).take size).length = size := by
  obtain ⟨out, st', heq, hlen, htar⟩ :=
    @read_spec content B url offset size st hB hco hcap
  have hslice : out = (content.drop offset).take size := by
    apply List.ext_getElem
    · rw [hlen, List.length_take, List.length_drop]
      omega
    · intro i h1 h2
      have hi : i < size := by rw [hlen] at h1; exact h1
      have ho : out[i] = out.getD i 0 := by
        rw [List.getD_eq_getElem?_getD, List.getElem?_eq_getElem h1]
        rfl
      have hs : ((content.drop offset).take size)[i] =
          ((content.drop offset).take size).getD i 0 := by
        rw [List.getD_eq_getElem?_getD, List.getElem?_eq_getElem h2]
        rfl
      rw [ho, hs, htar i hi, getD_drop_take hi]
      unfold readTarget
      rw [if_pos (by omega)]
  refine ⟨st', by rw [heq, hslice], ?_⟩
  rw [← hslice, hlen]

/-- C1 witness: reading 3 bytes at offset 1 of a 5-byte file with 2-byte
blocks from a fresh mount returns bytes 1..3. -/
theorem claim_C1_witness :
    (1 + 3 ≤ ([1, 2, 3, 4, 5] : List Nat).length) ∧
    ∃ st', read [1, 2, 3, 4, 5] 2 "u" 1 3 (initState 1) =
      some ((([1, 2, 3, 4, 5] : List Nat).drop 1).take 3, st') :=
  ⟨by decide,
   (@claim_C1_read_returns_slice [1, 2, 3, 4, 5] 2 "u" 1 3 (initState 1)
      (by decide) (coherent_initState [1, 2, 3, 4, 5] 2 "u" 1) (by decide)
      (by decide)).imp (fun st' h => h.1)⟩

/-- C8: a read whose window extends past end-of-file returns without
raising: the in-range bytes are delivered unchanged and the portion of the
output buffer beyond end-of-file stays zero-filled. -/
theorem claim_C8_read_past_eof {content : List Nat} {B : Nat} {url : String}
    {offset size : Nat} {st : FsState} (hB : 1 ≤ B)
    (hco : Coherent content B url st) (hcap : 1 ≤ st.lruCapacity)
    (hpast : content.length < offset + size) :
    ∃ out st', read content B url offset size st = some (out, st') ∧
      out.length = size ∧
      (∀ i, i < size → offset + i < content.length →
        out.getD i 0 = content.getD (offset + i) 0) ∧
      (∀ i, i < size → content.length ≤ offset + i → out.getD i 0 = 0) := by
  obtain ⟨out, st', heq, hlen, htar⟩ :=
    @read_spec content B url offset size st hB hco hcap
  refine ⟨out, st', heq, hlen, ?_, ?_⟩
  · intro i hi hin
    rw [htar i hi]
    unfold readTarget
    rw [if_pos hin]
  · intro i hi hout
    rw [htar i hi]
    unfold readTarget
    rw [if_neg (by omega)]

/-- C8 witness: reading 4 bytes at offset 3 of a 5-byte file returns the
two in-range bytes and zero-fills the rest, without raising. -/
theorem claim_C8_witness :
    (([1, 2, 3, 4, 5] : List Nat).length < 3 + 4) ∧
    ∃ out st', read [1, 2, 3, 4, 5] 2 "u" 3 4 (initState 1) =
        some (out, st') ∧
      out.length = 4 ∧ out.getD 1 0 = 5 ∧ out.getD 3 0 = 0 := by
  refine ⟨by decide, ?_⟩
  obtain ⟨out, st', heq, hlen, hin, hzero⟩ :=
    @claim_C8_read_past_eof [1, 2, 3, 4, 5] 2 "u" 3 4 (initState 1)
      (by decide) (coherent_initState [1, 2, 3, 4, 5] 2 "u" 1) (by decide)
      (by decide)
  refine ⟨out, st', heq, hlen, ?_, hzero 3 (by decide) (by decide)⟩
  have h := hin 1 (by decide) (by decide)
  rw [h]
  decide

/-! ## `HttpFs.getattr` (httpfs.py lines 260-303)

Attributes are cached in `self.lru_attrs`, an `LRUCache` keyed by path.
The path classification: a cached path returns its cached attribute; `"/"`
is a directory; a path whose last two characters are not the `".."` leaf
marker — Python's `path[-2:] != ".."`, equivalent to `not
path.endswith("..")` — and that is not a `..-journal`/`..-wal` sidecar is
a directory (returned without caching); otherwise the URL is
`schema:/ + path[:-2]` and the size comes from `fetcher.get_size`, except
for sidecar paths whose size is 0 with no remote query.  A `None` size
yields a directory attribute; a raised size query propagates. -/

inductive Attr where
  | dir                 -- dict(st_mode=(S_IFDIR | 0o555), st_nlink=2)
  | file (size : Nat)   -- dict(st_mode=(S_IFREG | 0o644), st_size=size, ...)
  deriving Repr, DecidableEq

/-- Python's `str.endswith(suffix)` as a character-list suffix test
(Lean's built-in `String.endsWith` is byte-position based and does not
reduce inside the kernel). -/
def endsWithStr (s suffix : String) : Bool :=
  suffix.data.isSuffixOf s.data

/-- Model of `getattr`: takes the attribute-cache capacity, the size oracle
(`fetcher.get_size`: `none` = raises, `some none` = returns `None`,
`some (some n)` = size `n`), the schema, the current `lru_attrs` contents
and the path; returns the attribute, the new cache, and the number of
remote size queries performed (0 or 1), or `none` when an exception
propagates. -/
def getattr (cap : Nat) (oracle : String → Option (Option Nat))
    (schema : String) (cache : List (String × Attr)) (path : String) :
    Option (Attr × List (String × Attr) × Nat) :=
  match lruGet cache path with
  | some (a, cache') => some (a, cache', 0)
  | none =>
    if path = "/" then
      match lruSet cache cap "/" Attr.dir with
      | none => none
      | some c' =>
        match lruGet c' "/" with
        | none => none
        | some (a, c'') => some (a, c'', 0)
    else if !endsWithStr path ".." && !endsWithStr path "..-journal" &&
        !endsWithStr path "..-wal" then
      some (Attr.dir, cache, 0)
    else
      let url := schema ++ ":/" ++ path.dropRight 2
      let sq : Option (Option Nat) × Nat :=
        if !endsWithStr path "..-journal" && !endsWithStr path "..-wal"
        then (oracle url, 1) else (some (some 0), 0)
      match sq.1 with
      | none => none
      | some sz =>
        let a := match sz with
          | some n => Attr.file n
          | none => Attr.dir
        match lruSet cache cap path a with
        | none => none
        | some c' =>
          match lruGet c' path with
          | none => none
          | some (a', c'') => some (a', c'', sq.2)

/-- C7: path classification by `getattr` on an uncached path: a
journal/WAL sidecar yields a regular file of size 0 with no remote size
query; a path not ending in the two-character leaf marker (and not a
sidecar) yields a directory; the root yields a directory. -/
theorem claim_C7_getattr_classification :
    (∀ (cap : Nat) (oracle : String → Option (Option Nat)) (schema : String)
        (cache : List (String × Attr)) (path : String),
        lookup cache path = none → 1 ≤ cap →
        (endsWithStr path "..-journal" || endsWithStr path "..-wal") = true →
        ∃ c', getattr cap oracle schema cache path =
          some (Attr.file 0, c', 0)) ∧
    (∀ (cap : Nat) (oracle : String → Option (Option Nat)) (schema : String)
        (cache : List (String × Attr)) (path : String),
        lookup cache path = none → path ≠ "/" →
        endsWithStr path ".." = false → endsWithStr path "..-journal" = false →
        endsWithStr path "..-wal" = false →
        getattr cap oracle schema cache path = some (Attr.dir, cache, 0)) ∧
    (∀ (cap : Nat) (oracle : String → Option (Option Nat)) (schema : String)
        (cache : List (String × Attr)),
        lookup cache "/" = none → 1 ≤ cap →
        ∃ c', getattr cap oracle schema cache "/" =
          some (Attr.dir, c', 0)) := by
  refine ⟨?_, ?_, ?_⟩
  · intro cap oracle schema cache path hmiss hcap hside
    have hroot : path ≠ "/" := by
      intro h
      subst h
      exact absurd hside (by decide)
    have hget : lruGet cache path = none := lruGet_eq_none_iff.mpr hmiss
    obtain ⟨c', hset, -⟩ := lruSet_pos_cap cache cap hcap path (Attr.file 0)
    have hlook : lookup c' path = some (Attr.file 0) :=
      lookup_lruSet_self hmiss hset
    have hget' : lruGet c' path =
        some (Attr.file 0, c'.filter (fun p => ¬ (p.1 = path)) ++
          [(path, Attr.file 0)]) := by
      unfold lruGet
      rw [hlook]
    refine ⟨c'.filter (fun p => ¬ (p.1 = path)) ++ [(path, Attr.file 0)], ?_⟩
    unfold getattr
    rw [hget]
    rw [if_neg hroot]
    rcases Bool.or_eq_true_iff.mp hside with hj | hw
    · have hc1 : ¬ ((!endsWithStr path ".." && !endsWithStr path "..-journal" &&
          !endsWithStr path "..-wal") = true) := by simp [hj]
      have hc2 : ¬ ((!endsWithStr path "..-journal" &&
          !endsWithStr path "..-wal") = true) := by simp [hj]
      rw [if_neg hc1]
      dsimp only
      rw [if_neg hc2]
      dsimp only
      rw [hset]
      dsimp only
      rw [hget']
    · have hc1 : ¬ ((!endsWithStr path ".." && !endsWithStr path "..-journal" &&
          !endsWithStr path "..-wal") = true) := by simp [hw]
      have hc2 : ¬ ((!endsWithStr path "..-journal" &&
          !endsWithStr path "..-wal") = true) := by simp [hw]
      rw [if_neg hc1]
      dsimp only
      rw [if_neg hc2]
      dsimp only
      rw [hset]
      dsimp only
      rw [hget']
  · intro cap oracle schema cache path hmiss hroot hdots hj hw
    have hget : lruGet cache path = none := lruGet_eq_none_iff.mpr hmiss
    unfold getattr
    rw [hget]
    rw [if_neg hroot, if_pos (by simp [hdots, hj, hw])]
  · intro cap oracle schema cache hmiss hcap
    have hget : lruGet cache "/" = none := lruGet_eq_none_iff.mpr hmiss
    obtain ⟨c', hset, -⟩ := lruSet_pos_cap cache cap hcap "/" Attr.dir
    have hlook : lookup c' "/" = some Attr.dir := lookup_lruSet_self hmiss hset
    have hget' : lruGet c' "/" =
        some (Attr.dir, c'.filter (fun p => ¬ (p.1 = "/")) ++
          [("/", Attr.dir)]) := by
      unfold lruGet
      rw [hlook]
    refine ⟨c'.filter (fun p => ¬ (p.1 = "/")) ++ [("/", Attr.dir)], ?_⟩
    unfold getattr
    rw [hget]
    rw [if_pos rfl, hset]
    dsimp only
    rw [hget']

/-- C7 witness: a journal sidecar, a plain directory path, and the root,
classified on a concrete empty attribute cache. -/
theorem claim_C7_witness :
    (∃ c', getattr 1 (fun _ => some (some 5)) "https" [] "/a..-journal" =
      some (Attr.file 0, c', 0)) ∧
    getattr 1 (fun _ => some (some 5)) "https" [] "/a/b" =
      some (Attr.dir, [], 0) ∧
    (∃ c', getattr 1 (fun _ => some (some 5)) "https" [] "/" =
      some (Attr.dir, c', 0)) := by
  refine ⟨?_, ?_, ?_⟩
  · exact claim_C7_getattr_classification.1 1 (fun _ => some (some 5)) "https"
      [] "/a..-journal" rfl (by decide) (by decide)
  · exact claim_C7_getattr_classification.2.1 1 (fun _ => some (some 5))
      "https" [] "/a/b" rfl (by decide) (by decide) (by decide) (by decide)
  · exact claim_C7_getattr_classification.2.2 1 (fun _ => some (some 5))
      "https" [] rfl (by decide)

/-! ## Single-flight deduplication (httpfs.py lines 227, 360-365)

`read` guards `get_block` with the shared `self.getting` set:

```
while block_id in self.getting:
    sleep(0.05)
self.getting.add(block_id)
block_data = self.get_block(url, block_num)
self.getting.remove(block_id)
```

The membership test and the `add` are separate statements with no lock, so
between one reader's final (false) test and its `add`, another reader can
run its own test and also see the id absent.  The interleaving model below
has two reader threads acquiring the same uncached block; each thread's
atomic steps are the lines above, with `get_block`'s cache check and the
fetcher call split into begin/end so that "in flight" is observable. -/

/-- Program points of one reader inside `read`'s block-acquisition code. -/
inductive RPC where
  | check       -- evaluate `block_id in self.getting` (sleep and retry if true)
  | add         -- `self.getting.add(block_id)`
  | fetchStart  -- enter `get_block`; on a cache miss, start `fetcher.get_data`
  | fetchEnd    -- `fetcher.get_data` returns; block stored in the caches
  | remove      -- `self.getting.remove(block_id)`
  | done
  deriving Repr, DecidableEq

/-- Shared state of two readers acquiring the same block identity. -/
structure DupState where
  pc1 : RPC
  pc2 : RPC
  getting : Bool     -- `block_id ∈ self.getting`
  cached : Bool      -- the block is present in a cache tier
  inFlight : Nat     -- `fetcher.get_data` calls currently executing
  fetchCalls : Nat   -- total `fetcher.get_data` invocations
  deriving Repr, DecidableEq

/-- One atomic step of a reader at program point `pc`. -/
def stepPC (pc : RPC) (s : DupState) : RPC × DupState :=
  match pc with
  | .check => if s.getting then (.check, s) else (.add, s)
  | .add => (.fetchStart, { s with getting := true })
  | .fetchStart =>
    if s.cached then (.remove, s)
    else (.fetchEnd,
      { s with inFlight := s.inFlight + 1, fetchCalls := s.fetchCalls + 1 })
  | .fetchEnd => (.remove, { s with inFlight := s.inFlight - 1, cached := true })
  | .remove => (.done, { s with getting := false })
  | .done => (.done, s)

/-- Scheduler step: run thread 1 (`true`) or thread 2 (`false`). -/
def stepThread (t : Bool) (s : DupState) : DupState :=
  if t then
    let p := stepPC s.pc1 s
    { p.2 with pc1 := p.1 }
  else
    let p := stepPC s.pc2 s
    { p.2 with pc2 := p.1 }

/-- Run a schedule (a list of thread choices). -/
def runSched (sched : List Bool) (s : DupState) : DupState :=
  sched.foldl (fun s t => stepThread t s) s

/-- Two readers requesting the same uncached block. -/
def dupInit : DupState := ⟨.check, .check, false, false, 0, 0⟩

/-- C2 evidence: under the schedule where both readers evaluate
`block_id in self.getting` before either executes `add`, the model reaches
a state with two fetcher calls in flight at the same instant, and the
completed run performs two fetcher invocations for one block identity —
not the single-flight behaviour the claim states.  A serialized schedule
does exhibit one fetch with the second reader reusing the cached block, so
the failure is precisely the unsynchronized test-then-add window. -/
theorem claim_C2_single_flight_race :
    (runSched [true, false, true, true, false, false] dupInit).inFlight = 2 ∧
    (runSched [true, false, true, true, false, false, true, false, true, false]
        dupInit =
      ⟨RPC.done, RPC.done, false, true, 0, 2⟩) ∧
    (runSched [true, true, true, true, true, false, false, false, false]
        dupInit =
      ⟨RPC.done, RPC.done, false, true, 0, 1⟩) := by decide

end SimpleHttpfs
